import Mathlib

/-!
Shallow embedding of the realtime collaborative whiteboard core
(`src/src/App.tsx`, third/final component version, and `src/server.js`).

The client keeps an event-sourced log of `StoredEvent`s, a seen-id set used
for deduplication, derives a render order by a stable sort on `seq`, and
computes stroke visibility from live (non-redone) undo events.  The server
is a pure fan-out relay.
-/

namespace Whiteboard

/-- The tagged union of whiteboard actions (`WhiteboardEvent` in `App.tsx`):
three stroke-bearing draw variants plus the two compensating variants. -/
inductive WhiteboardEvent where
  | stroke_start (strokeId : String) (x y : Int)
  | stroke_move (strokeId : String) (x y : Int)
  | stroke_end (strokeId : String)
  | undo (targetStrokeId : String)
  | redo (targetUndoEventId : String)
deriving DecidableEq

/-- `StoredEvent` from `App.tsx`: a `WhiteboardEvent` plus the envelope
`{id, seq, userId}` added by `createEvent`. -/
structure StoredEvent where
  event : WhiteboardEvent
  id : String
  seq : Int
  userId : String
deriving DecidableEq

/-- The `"strokeId" in e` test of `redraw`: the strokeId carried by a
stroke-bearing event, `none` for undo/redo events. -/
def strokeId? (e : StoredEvent) : Option String :=
  match e.event with
  | .stroke_start s _ _ => some s
  | .stroke_move s _ _ => some s
  | .stroke_end s => some s
  | .undo _ => none
  | .redo _ => none

/-- `const ordered = [...events].sort((a, b) => a.seq - b.seq)` in `redraw`:
a stable sort by `seq` ascending (JS `Array.prototype.sort` is stable,
so ties keep log insertion order). -/
def resolve_order (log : List StoredEvent) : List StoredEvent :=
  log.mergeSort (fun a b => a.seq ≤ b.seq)

/-- First loop of `redraw`: `redoneUndoIds` collects `targetUndoEventId`
of every redo event in the ordered log. -/
def redoneUndoIds (log : List StoredEvent) : List String :=
  (resolve_order log).filterMap fun e =>
    match e.event with
    | .redo t => some t
    | _ => none

/-- Second loop of `redraw`: `undoneStrokes` collects `targetStrokeId` of
every undo event whose own `id` is not in `redoneUndoIds`. -/
def undoneStrokeIds (log : List StoredEvent) : List String :=
  (resolve_order log).filterMap fun e =>
    match e.event with
    | .undo t => if e.id ∈ redoneUndoIds log then none else some t
    | _ => none

/-- The filter of `redraw`'s third loop:
`if ("strokeId" in e && undoneStrokes.has(e.strokeId)) continue`. -/
def isVisible (log : List StoredEvent) (e : StoredEvent) : Bool :=
  match strokeId? e with
  | some s => decide (s ∉ undoneStrokeIds log)
  | none => true

/-- The ordered, filtered sequence that `redraw`'s third loop actually
paints from: the resolved order with hidden stroke events dropped. -/
def visible_events (log : List StoredEvent) : List StoredEvent :=
  (resolve_order log).filter (isVisible log)

/-- Client-side event-sourced state: the `events` log plus the
`seenEventIds` dedup set (modelled as the list of ids in admission order). -/
structure ClientState where
  events : List StoredEvent
  seenEventIds : List String
deriving DecidableEq

/-- The empty initial state (`useState([])` and `new Set()`). -/
def initialState : ClientState := ⟨[], []⟩

/-- `ingestEvent` from `App.tsx`: reject if the id was seen, otherwise
record the id as seen and append the event to the log. -/
def ingestEvent (st : ClientState) (e : StoredEvent) : ClientState :=
  if e.id ∈ st.seenEventIds then st
  else ⟨st.events ++ [e], st.seenEventIds ++ [e.id]⟩

/-- Ingest a whole delivery history, in order, starting anywhere. -/
def ingestList (st : ClientState) (h : List StoredEvent) : ClientState :=
  h.foldl ingestEvent st

/-- Ingest a whole delivery history from the empty initial state. -/
def ingestAll (h : List StoredEvent) : ClientState :=
  ingestList initialState h

/-- The subsequence of `h` keeping only the first delivery of each id not
already in `seen` (the log content `ingestList` admits). -/
def firstOccurrences (h : List StoredEvent) (seen : List String) :
    List StoredEvent :=
  match h with
  | [] => []
  | e :: rest =>
      if e.id ∈ seen then firstOccurrences rest seen
      else e :: firstOccurrences rest (seen ++ [e.id])

/-- `handleUndo`'s backward scan matcher:
`e.type === "stroke_end" && e.userId === userIdRef.current`,
yielding that event's `strokeId`. -/
def ownStrokeEnd? (user : String) (e : StoredEvent) : Option String :=
  match e.event with
  | .stroke_end s => if e.userId = user then some s else none
  | _ => none

/-- `handleRedo`'s backward scan matcher:
`e.type === "undo" && e.userId === userIdRef.current`,
yielding that event's `id`. -/
def ownUndo? (user : String) (e : StoredEvent) : Option String :=
  match e.event with
  | .undo _ => if e.userId = user then some e.id else none
  | _ => none

/-- The stroke targeted by a user-initiated undo request: the backward
scan of `handleUndo` over the log. -/
def undoTarget? (log : List StoredEvent) (user : String) : Option String :=
  log.reverse.findSome? (ownStrokeEnd? user)

/-- The undo-event id targeted by a user-initiated redo request: the
backward scan of `handleRedo` over the log. -/
def redoTarget? (log : List StoredEvent) (user : String) : Option String :=
  log.reverse.findSome? (ownUndo? user)

/-- `handleUndo` from `App.tsx`: on an eligible target, build the undo
event (with the fresh id and next seq `createEvent` would assign), ingest
it locally and emit it; otherwise do nothing and emit nothing. -/
def handleUndo (st : ClientState) (user freshId : String) (seq : Int) :
    ClientState × Option StoredEvent :=
  match undoTarget? st.events user with
  | none => (st, none)
  | some s =>
      let ev : StoredEvent := ⟨.undo s, freshId, seq, user⟩
      (ingestEvent st ev, some ev)

/-- `handleRedo` from `App.tsx`: on an eligible target, build the redo
event, ingest it locally and emit it; otherwise do nothing. -/
def handleRedo (st : ClientState) (user freshId : String) (seq : Int) :
    ClientState × Option StoredEvent :=
  match redoTarget? st.events user with
  | none => (st, none)
  | some t =>
      let ev : StoredEvent := ⟨.redo t, freshId, seq, user⟩
      (ingestEvent st ev, some ev)

/-! ### Relay broadcaster (`src/server.js`) -/

/-- A websocket connection as the relay sees it: an identity plus its
`readyState` (`1` is OPEN in the ws library). -/
structure Conn where
  cid : Nat
  readyState : Nat
deriving DecidableEq

/-- The per-message handler of `server.js`: forward `msg` verbatim to every
client other than the sender whose `readyState === 1`; everything else is
silently skipped.  Returns the list of (recipient, delivered payload). -/
def broadcast (clients : List Conn) (sender : Conn) (msg : String) :
    List (Conn × String) :=
  (clients.filter fun c => decide (c ≠ sender) && decide (c.readyState = 1)).map
    fun c => (c, msg)

/-! ### Cursor presence (`socket.onmessage`, `"cursor"` branch) -/

/-- Ephemeral cursor presence: `{userId, x, y, color}`. -/
structure CursorPresence where
  userId : String
  x : Int
  y : Int
  color : String
deriving DecidableEq

/-- The cursors map `Record<string, CursorPresence>`, modelled as a partial
map from userId to presence. -/
def Cursors : Type := String → Option CursorPresence

/-- `setCursors((prev) => ({ ...prev, [data.userId]: data }))`: overwrite
the slot for `p.userId` with `p`, leaving every other slot unchanged. -/
def updateCursor (m : Cursors) (p : CursorPresence) : Cursors :=
  fun k => if k = p.userId then some p else m k

/-- The `"cursor"` branch of `socket.onmessage`: drop the update if it
echoes the local user's own id, otherwise overwrite that user's slot. -/
def onCursorMessage (selfId : String) (m : Cursors) (p : CursorPresence) :
    Cursors :=
  if p.userId = selfId then m else updateCursor m p

/-! ### Basic characterizations of the visibility computation -/

theorem mem_resolve_order {log : List StoredEvent} {e : StoredEvent} :
    e ∈ resolve_order log ↔ e ∈ log :=
  List.mem_mergeSort

theorem mem_redoneUndoIds {log : List StoredEvent} {t : String} :
    t ∈ redoneUndoIds log ↔
      ∃ r ∈ log, r.event = WhiteboardEvent.redo t := by
  simp only [redoneUndoIds, List.mem_filterMap, mem_resolve_order]
  constructor
  · rintro ⟨r, hr, hrt⟩
    cases h : r.event <;> rw [h] at hrt <;> simp at hrt
    exact ⟨r, hr, by rw [h, hrt]⟩
  · rintro ⟨r, hr, hrt⟩
    exact ⟨r, hr, by rw [hrt]⟩

theorem mem_undoneStrokeIds {log : List StoredEvent} {s : String} :
    s ∈ undoneStrokeIds log ↔
      ∃ u ∈ log, u.event = WhiteboardEvent.undo s ∧
        u.id ∉ redoneUndoIds log := by
  simp only [undoneStrokeIds, List.mem_filterMap, mem_resolve_order]
  constructor
  · rintro ⟨u, hu, hus⟩
    cases h : u.event <;> rw [h] at hus <;> simp at hus
    by_cases hm : u.id ∈ redoneUndoIds log
    · simp [hm] at hus
    · simp [hm] at hus
      exact ⟨u, hu, by rw [h, hus], hm⟩
  · rintro ⟨u, hu, hus, hm⟩
    exact ⟨u, hu, by rw [hus]; simp [hm]⟩

/-- C1.  For every log, the visible-stroke computation hides exactly the
strokes targeted by live undos: a stroke-bearing event of the log survives
`redraw`'s filter iff no undo event in the log targets its strokeId while
itself lacking a redo event targeting its id. -/
theorem visible_iff_no_live_undo (log : List StoredEvent) (e : StoredEvent)
    (s : String) (he : e ∈ log) (hs : strokeId? e = some s) :
    e ∈ visible_events log ↔
      ¬ ∃ u ∈ log, u.event = WhiteboardEvent.undo s ∧
        ¬ ∃ r ∈ log, r.event = WhiteboardEvent.redo u.id := by
  unfold visible_events
  rw [List.mem_filter]
  have hmem : e ∈ resolve_order log := mem_resolve_order.mpr he
  simp only [hmem, true_and]
  unfold isVisible
  rw [hs]
  simp only [decide_eq_true_eq, mem_undoneStrokeIds, mem_redoneUndoIds]

/-- A one-stroke example log: a stroke `S` drawn by user `A`, then undone
by `A` with no redo. -/
def exStart : StoredEvent := ⟨.stroke_start "S" 0 0, "s0", 0, "A"⟩

def exEnd : StoredEvent := ⟨.stroke_end "S", "s2", 2, "A"⟩

def exUndo : StoredEvent := ⟨.undo "S", "u1", 3, "A"⟩

def exLog : List StoredEvent := [exStart, exEnd, exUndo]

/-- Concrete instance of C1 at the example log: the `stroke_start` of `S`
is visible iff no live undo of `S` exists there. -/
theorem visible_iff_no_live_undo_witness :
    exStart ∈ exLog ∧ strokeId? exStart = some "S" ∧
    (exStart ∈ visible_events exLog ↔
      ¬ ∃ u ∈ exLog, u.event = WhiteboardEvent.undo "S" ∧
        ¬ ∃ r ∈ exLog, r.event = WhiteboardEvent.redo u.id) :=
  ⟨by decide, rfl, visible_iff_no_live_undo exLog exStart "S" (by decide) rfl⟩

/-- C2.  Ingestion is idempotent and atomic on duplicates: with the event's
id already seen, `ingestEvent` performs no mutation at all (so
`visible_events` is unchanged too), and ingesting a fresh event twice
appends exactly one copy of it to the log. -/
theorem ingestEvent_idempotent (st : ClientState) (e : StoredEvent) :
    (e.id ∈ st.seenEventIds → ingestEvent st e = st) ∧
    (e.id ∈ st.seenEventIds →
      visible_events (ingestEvent st e).events = visible_events st.events) ∧
    (e.id ∉ st.seenEventIds →
      (ingestEvent (ingestEvent st e) e).events = st.events ++ [e]) ∧
    (e.id ∉ st.seenEventIds → e ∉ st.events →
      (ingestEvent (ingestEvent st e) e).events.count e = 1) := by
  by_cases h : e.id ∈ st.seenEventIds
  · simp [ingestEvent, h]
  · refine ⟨fun hc => absurd hc h, fun hc => absurd hc h, ?_, ?_⟩
    · simp [ingestEvent, h]
    · intro _ hne
      simp [ingestEvent, h, List.count_append, List.count_eq_zero.mpr hne]

/-- Concrete instance of C2: re-ingesting the duplicate of an already-seen
event mutates nothing, and double-ingesting a fresh event from the empty
state leaves exactly one copy in the log. -/
theorem ingestEvent_idempotent_witness :
    ("s0" : String) ∈ (ingestEvent initialState exStart).seenEventIds ∧
    ingestEvent (ingestEvent initialState exStart) exStart =
      ingestEvent initialState exStart ∧
    (ingestEvent (ingestEvent initialState exStart) exStart).events =
      initialState.events ++ [exStart] ∧
    (ingestEvent (ingestEvent initialState exStart) exStart).events.count
      exStart = 1 :=
  ⟨by decide,
   (ingestEvent_idempotent (ingestEvent initialState exStart) exStart).1
     (by decide),
   (ingestEvent_idempotent initialState exStart).2.2.1 (by decide),
   (ingestEvent_idempotent initialState exStart).2.2.2 (by decide)
     (by decide)⟩

/-! ### Ingestion histories -/

theorem ingestList_eq (h : List StoredEvent) (st : ClientState) :
    ingestList st h =
      ⟨st.events ++ firstOccurrences h st.seenEventIds,
       st.seenEventIds ++
         (firstOccurrences h st.seenEventIds).map (·.id)⟩ := by
  induction h generalizing st with
  | nil => simp [ingestList, firstOccurrences]
  | cons e rest ih =>
    have hstep : ingestList st (e :: rest) =
        ingestList (ingestEvent st e) rest := rfl
    by_cases hm : e.id ∈ st.seenEventIds
    · rw [hstep, ih, ingestEvent, if_pos hm]
      simp [firstOccurrences, hm]
    · rw [hstep, ih, ingestEvent, if_neg hm]
      simp [firstOccurrences, hm]

theorem firstOccurrences_nodup (h : List StoredEvent) (seen : List String) :
    ((firstOccurrences h seen).map (·.id)).Nodup ∧
    ∀ i ∈ (firstOccurrences h seen).map (·.id), i ∉ seen := by
  induction h generalizing seen with
  | nil => simp [firstOccurrences]
  | cons e rest ih =>
    by_cases hm : e.id ∈ seen
    · simpa [firstOccurrences, hm] using ih seen
    · have ih' := ih (seen ++ [e.id])
      refine ⟨?_, ?_⟩
      · rw [firstOccurrences, if_neg hm]
        simp only [List.map_cons, List.nodup_cons]
        refine ⟨fun hmem => ?_, ih'.1⟩
        have := ih'.2 e.id hmem
        simp at this
      · intro i hi
        rw [firstOccurrences, if_neg hm] at hi
        simp only [List.map_cons, List.mem_cons] at hi
        rcases hi with hi | hi
        · rw [hi]; exact hm
        · intro hseen
          exact ih'.2 i hi (by simp [hseen])

/-- C3.  Order determinism: the sequence produced by `resolve_order` (the
stable sort by `seq` used by `redraw`) is a function of the final log
content alone; and the final log content of any ingestion history is
exactly the first-occurrence-per-id subsequence of that history, so
redelivered duplicates never perturb the resulting order. -/
theorem resolve_order_deterministic (h1 h2 : List StoredEvent) :
    ((ingestAll h1).events = (ingestAll h2).events →
      resolve_order (ingestAll h1).events =
        resolve_order (ingestAll h2).events) ∧
    (∀ h : List StoredEvent, (ingestAll h).events = firstOccurrences h []) := by
  refine ⟨fun he => by rw [he], fun h => ?_⟩
  rw [ingestAll, ingestList_eq]
  simp [initialState]

/-- Concrete instance of C3: a history with redelivered duplicates admits
the same log as the clean history, so the render orders coincide. -/
theorem resolve_order_deterministic_witness :
    (ingestAll [exStart, exEnd]).events =
      (ingestAll [exStart, exStart, exEnd, exEnd, exStart]).events ∧
    resolve_order (ingestAll [exStart, exEnd]).events =
      resolve_order (ingestAll [exStart, exStart, exEnd, exEnd,
        exStart]).events :=
  ⟨by decide,
   (resolve_order_deterministic [exStart, exEnd]
     [exStart, exStart, exEnd, exEnd, exStart]).1 (by decide)⟩

/-! ### Log/seen-set coherence -/

/-- The coherence invariant of a client state: log ids are pairwise
distinct and the seen set is exactly the set of logged ids. -/
def Coherent (st : ClientState) : Prop :=
  (st.events.map (·.id)).Nodup ∧ st.seenEventIds = st.events.map (·.id)

theorem coherent_ingestEvent {st : ClientState} (e : StoredEvent)
    (hst : Coherent st) : Coherent (ingestEvent st e) := by
  obtain ⟨hnd, hseen⟩ := hst
  by_cases hm : e.id ∈ st.seenEventIds
  · rw [ingestEvent, if_pos hm]; exact ⟨hnd, hseen⟩
  · rw [ingestEvent, if_neg hm]
    constructor
    · simp only [List.map_append, List.map_cons, List.map_nil]
      rw [List.nodup_append]
      refine ⟨hnd, List.nodup_singleton _, ?_⟩
      intro i hi hi'
      simp only [List.mem_singleton] at hi'
      rw [hi'] at hi
      rw [hseen] at hm
      exact hm hi
    · simp [hseen]

/-- C10.  Log/seen-set coherence: every state reachable by ingestion from
the empty state has pairwise-distinct log ids with the seen set equal to
the set of logged ids, and each mutating operation of the client
(`ingestEvent`, and `handleUndo`/`handleRedo`, which mutate only through
it) preserves this invariant. -/
theorem coherent_reachable (h : List StoredEvent) (st : ClientState)
    (e : StoredEvent) (user freshId : String) (q : Int) :
    Coherent (ingestAll h) ∧
    (Coherent st → Coherent (ingestEvent st e)) ∧
    (Coherent st → Coherent (handleUndo st user freshId q).1) ∧
    (Coherent st → Coherent (handleRedo st user freshId q).1) := by
  refine ⟨?_, coherent_ingestEvent e, ?_, ?_⟩
  · rw [ingestAll, ingestList_eq]
    refine ⟨?_, ?_⟩
    · simpa [initialState] using (firstOccurrences_nodup h []).1
    · simp [initialState]
  · intro hst
    rw [handleUndo]
    cases undoTarget? st.events user with
    | none => exact hst
    | some s => exact coherent_ingestEvent _ hst
  · intro hst
    rw [handleRedo]
    cases redoTarget? st.events user with
    | none => exact hst
    | some t => exact coherent_ingestEvent _ hst

/-- Concrete instance of C10: coherence holds for a small redelivered
history and is preserved by one more ingest and by undo/redo handling. -/
theorem coherent_reachable_witness :
    Coherent (ingestAll [exStart, exStart, exEnd]) ∧
    Coherent (ingestEvent (ingestAll [exStart, exStart, exEnd]) exUndo) ∧
    Coherent (handleUndo (ingestAll [exStart, exStart, exEnd]) "A" "u9" 9).1 ∧
    Coherent (handleRedo (ingestAll [exStart, exStart, exEnd]) "A" "u9" 9).1 := by
  have h := coherent_reachable [exStart, exStart, exEnd]
    (ingestAll [exStart, exStart, exEnd]) exUndo "A" "u9" 9
  exact ⟨h.1, h.2.1 h.1, h.2.2.1 h.1, h.2.2.2 h.1⟩

/-! ### Undo/redo target selection -/

theorem findSome?_eq_head?_filterMap {α β : Type} (f : α → Option β)
    (l : List α) : l.findSome? f = (l.filterMap f).head? := by
  induction l with
  | nil => rfl
  | cons a rest ih =>
    rw [List.findSome?_cons, List.filterMap_cons]
    cases f a with
    | none => exact ih
    | some b => rfl

/-- The backward scan picks the last match of the log: `findSome?` over the
reversed log is `getLast?` of the matches in log order. -/
theorem findSome?_reverse_eq_getLast? {α β : Type} (f : α → Option β)
    (l : List α) : l.reverse.findSome? f = (l.filterMap f).getLast? := by
  rw [findSome?_eq_head?_filterMap, List.filterMap_reverse,
    List.head?_reverse]

theorem undoTarget?_eq (log : List StoredEvent) (user : String) :
    undoTarget? log user =
      (log.filterMap (ownStrokeEnd? user)).getLast? :=
  findSome?_reverse_eq_getLast? _ _

theorem redoTarget?_eq (log : List StoredEvent) (user : String) :
    redoTarget? log user = (log.filterMap (ownUndo? user)).getLast? :=
  findSome?_reverse_eq_getLast? _ _

theorem ownStrokeEnd?_eq_some {user : String} {e : StoredEvent}
    {s : String} :
    ownStrokeEnd? user e = some s ↔
      e.userId = user ∧ e.event = WhiteboardEvent.stroke_end s := by
  unfold ownStrokeEnd?
  cases h : e.event <;> simp [h]

theorem ownUndo?_eq_some {user : String} {e : StoredEvent} {t : String} :
    ownUndo? user e = some t ↔
      e.userId = user ∧ e.id = t ∧
        ∃ s, e.event = WhiteboardEvent.undo s := by
  unfold ownUndo?
  cases h : e.event <;> simp [h]

/-- Appending events that are not a `stroke_end` of the requesting user
(in particular the undo event the first request itself ingested) does not
change the undo target. -/
theorem undoTarget?_append (log ext : List StoredEvent) (user : String)
    (hext : ∀ e ∈ ext, ownStrokeEnd? user e = none) :
    undoTarget? (log ++ ext) user = undoTarget? log user := by
  rw [undoTarget?_eq, undoTarget?_eq, List.filterMap_append]
  have : ext.filterMap (ownStrokeEnd? user) = [] := by
    rw [List.filterMap_eq_nil_iff]
    exact hext
  rw [this, List.append_nil]

/-- C4.  A user-initiated undo request scans the log backward for the most
recent own `stroke_end` (the last own stroke-end of the log in order, with
no exclusion of strokes already undone) and emits an undo targeting that
event's strokeId; consequently a second undo request issued after the
first, with no intervening stroke, emits an undo targeting the very same
stroke. -/
theorem undo_retargets_same_stroke (st : ClientState) (user : String) :
    (undoTarget? st.events user =
      (st.events.filterMap (ownStrokeEnd? user)).getLast?) ∧
    (∀ f q, (handleUndo st user f q).2 =
      (undoTarget? st.events user).map fun s =>
        (⟨WhiteboardEvent.undo s, f, q, user⟩ : StoredEvent)) ∧
    (∀ f q f' q' s,
      (handleUndo st user f q).2 =
        some ⟨WhiteboardEvent.undo s, f, q, user⟩ →
      (handleUndo (handleUndo st user f q).1 user f' q').2 =
        some ⟨WhiteboardEvent.undo s, f', q', user⟩) := by
  refine ⟨undoTarget?_eq _ _, ?_, ?_⟩
  · intro f q
    rw [handleUndo]
    cases undoTarget? st.events user <;> rfl
  · intro f q f' q' s hemit
    have hmap : (handleUndo st user f q).2 =
        (undoTarget? st.events user).map fun s =>
          (⟨WhiteboardEvent.undo s, f, q, user⟩ : StoredEvent) := by
      rw [handleUndo]
      cases undoTarget? st.events user <;> rfl
    rw [hmap] at hemit
    have htgt : undoTarget? st.events user = some s := by
      rw [Option.map_eq_some'] at hemit
      obtain ⟨a, ha, hfa⟩ := hemit
      have has : a = s := by
        have := congrArg StoredEvent.event hfa
        simpa using this
      rw [ha, has]
    have hstate : (handleUndo st user f q).1.events = st.events ∨
        (handleUndo st user f q).1.events =
          st.events ++ [⟨WhiteboardEvent.undo s, f, q, user⟩] := by
      rw [handleUndo, htgt]
      by_cases hm : f ∈ st.seenEventIds
      · left
        simp [ingestEvent, hm]
      · right
        simp [ingestEvent, hm]
    have hnoend :
        ∀ e ∈ [(⟨WhiteboardEvent.undo s, f, q, user⟩ : StoredEvent)],
          ownStrokeEnd? user e = none := by
      intro e he
      simp only [List.mem_singleton] at he
      rw [he]
      rfl
    have htgt' : undoTarget? (handleUndo st user f q).1.events user =
        some s := by
      rcases hstate with hs | hs
      · rw [hs, htgt]
      · rw [hs, undoTarget?_append _ _ _ hnoend, htgt]
    rw [handleUndo, htgt']

/-- Concrete instance of C4: with one finished own stroke `S`, the first
undo request targets `S`, and a second request issued right after (no new
stroke in between) targets `S` again rather than any earlier stroke. -/
theorem undo_retargets_same_stroke_witness :
    (handleUndo ⟨[exStart, exEnd], ["s0", "s2"]⟩ "A" "u1" 3).2 =
      some ⟨WhiteboardEvent.undo "S", "u1", 3, "A"⟩ ∧
    (handleUndo
        (handleUndo ⟨[exStart, exEnd], ["s0", "s2"]⟩ "A" "u1" 3).1
        "A" "u9" 9).2 =
      some ⟨WhiteboardEvent.undo "S", "u9", 9, "A"⟩ :=
  ⟨by decide,
   (undo_retargets_same_stroke ⟨[exStart, exEnd], ["s0", "s2"]⟩ "A").2.2
     "u1" 3 "u9" 9 "S" (by decide)⟩

/-- A log in which user `A` undid stroke `S1`, then undid stroke `S2`,
then redid the second undo: `A`'s most recent undo (`u2`) is already
redone while the older undo (`u1`) is still live. -/
def redoCexLog : List StoredEvent :=
  [⟨.undo "S1", "u1", 0, "A"⟩, ⟨.undo "S2", "u2", 1, "A"⟩,
   ⟨.redo "u2", "r1", 2, "A"⟩]

/-- Counterexample to C5 as stated: `handleRedo`'s backward scan does not
skip undos that have already been redone.  On `redoCexLog` it targets
`u2`, which is already redone, even though `A` still has the not-yet-
redone undo `u1`. -/
theorem redo_scoping_counterexample :
    redoTarget? redoCexLog "A" = some "u2" ∧
    "u2" ∈ redoneUndoIds redoCexLog ∧
    (∃ u ∈ redoCexLog, u.userId = "A" ∧ u.id = "u1" ∧
      u.event = WhiteboardEvent.undo "S1" ∧
      ¬ ∃ r ∈ redoCexLog, r.event = WhiteboardEvent.redo "u1") ∧
    (handleRedo ⟨redoCexLog, ["u1", "u2", "r1"]⟩ "A" "r2" 3).2 =
      some ⟨WhiteboardEvent.redo "u2", "r2", 3, "A"⟩ :=
  ⟨by decide,
   mem_redoneUndoIds.mpr ⟨⟨.redo "u2", "r1", 2, "A"⟩, by decide, rfl⟩,
   by decide, by decide⟩

/-- C5 (amended).  A redo request targets the user's own most recent undo
event in the log — never another user's undo, and never an older undo of
the same user once a newer one exists — but with no regard to whether that
undo has already been redone. -/
theorem redo_targets_latest_own_undo (log : List StoredEvent)
    (user : String) :
    (redoTarget? log user = (log.filterMap (ownUndo? user)).getLast?) ∧
    (∀ t, redoTarget? log user = some t →
      ∃ u ∈ log, u.id = t ∧ u.userId = user ∧
        ∃ s, u.event = WhiteboardEvent.undo s) ∧
    (∀ seen f q, (handleRedo ⟨log, seen⟩ user f q).2 =
      (redoTarget? log user).map fun t =>
        (⟨WhiteboardEvent.redo t, f, q, user⟩ : StoredEvent)) := by
  refine ⟨redoTarget?_eq _ _, ?_, ?_⟩
  · intro t ht
    obtain ⟨u, hu, hut⟩ := List.exists_of_findSome?_eq_some ht
    rw [List.mem_reverse] at hu
    obtain ⟨huser, hid, hs⟩ := ownUndo?_eq_some.mp hut
    exact ⟨u, hu, hid, huser, hs⟩
  · intro seen f q
    rw [handleRedo]
    cases redoTarget? log user <;> rfl

/-- Concrete instance of the amended C5 on `redoCexLog`: the emitted redo
targets `u2`, the id of `A`'s most recent own undo. -/
theorem redo_targets_latest_own_undo_witness :
    redoTarget? redoCexLog "A" = some "u2" ∧
    (∃ u ∈ redoCexLog, u.id = "u2" ∧ u.userId = "A" ∧
      ∃ s, u.event = WhiteboardEvent.undo s) ∧
    (handleRedo ⟨redoCexLog, ["u1", "u2", "r1"]⟩ "A" "r2" 3).2 =
      (redoTarget? redoCexLog "A").map fun t =>
        (⟨WhiteboardEvent.redo t, "r2", 3, "A"⟩ : StoredEvent) :=
  ⟨by decide,
   (redo_targets_latest_own_undo redoCexLog "A").2.1 "u2" (by decide),
   (redo_targets_latest_own_undo redoCexLog "A").2.2 ["u1", "u2", "r1"]
     "r2" 3⟩

/-- C6.  Multi-undo requires full redo: with two distinct undo events both
targeting stroke `S` in the log, `S` stays in `undoneStrokeIds` (hence out
of the visible stroke set) while either of them lacks a redo targeting its
id, and `S` leaves `undoneStrokeIds` exactly when every undo of `S` in the
log — in particular both — has been redone. -/
theorem multi_undo_requires_full_redo (log : List StoredEvent)
    (u1 u2 : StoredEvent) (S : String) (h1 : u1 ∈ log) (h2 : u2 ∈ log)
    (hne : u1.id ≠ u2.id) (e1 : u1.event = WhiteboardEvent.undo S)
    (e2 : u2.event = WhiteboardEvent.undo S) :
    ((¬ ∃ r ∈ log, r.event = WhiteboardEvent.redo u2.id) →
      S ∈ undoneStrokeIds log) ∧
    ((¬ ∃ r ∈ log, r.event = WhiteboardEvent.redo u1.id) →
      S ∈ undoneStrokeIds log) ∧
    (S ∉ undoneStrokeIds log ↔
      ∀ u ∈ log, u.event = WhiteboardEvent.undo S →
        ∃ r ∈ log, r.event = WhiteboardEvent.redo u.id) := by
  refine ⟨?_, ?_, ?_⟩
  · intro h
    exact mem_undoneStrokeIds.mpr
      ⟨u2, h2, e2, fun hm => h (mem_redoneUndoIds.mp hm)⟩
  · intro h
    exact mem_undoneStrokeIds.mpr
      ⟨u1, h1, e1, fun hm => h (mem_redoneUndoIds.mp hm)⟩
  · rw [mem_undoneStrokeIds]
    push_neg
    constructor
    · intro h u hu hev
      exact mem_redoneUndoIds.mp (h u hu hev)
    · intro h u hu hev
      exact mem_redoneUndoIds.mpr (h u hu hev)

/-- A log with stroke `S` undone twice (ids `v1`, `v2`) and only `v1`
redone. -/
def twoUndoLog : List StoredEvent :=
  [exStart, exEnd, ⟨.undo "S", "v1", 3, "A"⟩, ⟨.undo "S", "v2", 4, "A"⟩,
   ⟨.redo "v1", "r1", 5, "A"⟩]

/-- Concrete instance of C6 on `twoUndoLog`: with only the first of the
two undos of `S` redone, `S` is still in `undoneStrokeIds`. -/
theorem multi_undo_requires_full_redo_witness :
    (⟨.undo "S", "v2", 4, "A"⟩ : StoredEvent) ∈ twoUndoLog ∧
    ("v1" : String) ≠ "v2" ∧
    "S" ∈ undoneStrokeIds twoUndoLog :=
  ⟨by decide, by decide,
   (multi_undo_requires_full_redo twoUndoLog ⟨.undo "S", "v1", 3, "A"⟩
       ⟨.undo "S", "v2", 4, "A"⟩ "S" (by decide) (by decide) (by decide)
       rfl rfl).1 (by decide)⟩

/-- C7.  No-eligible-target no-op: a user with no own `stroke_end` in the
log gets nothing emitted and an unchanged state from an undo request, and
a user with no own undo event likewise from a redo request. -/
theorem no_eligible_target_noop (st : ClientState) (user freshId : String)
    (q : Int) :
    ((∀ e ∈ st.events, ∀ s, e.event = WhiteboardEvent.stroke_end s →
        e.userId ≠ user) →
      handleUndo st user freshId q = (st, none)) ∧
    ((∀ e ∈ st.events, ∀ s, e.event = WhiteboardEvent.undo s →
        e.userId ≠ user) →
      handleRedo st user freshId q = (st, none)) := by
  constructor
  · intro h
    have hnone : undoTarget? st.events user = none := by
      rw [undoTarget?, List.findSome?_eq_none_iff]
      intro e he
      rw [List.mem_reverse] at he
      unfold ownStrokeEnd?
      cases hev : e.event <;> try rfl
      rename_i s
      simp [h e he s hev]
    rw [handleUndo, hnone]
  · intro h
    have hnone : redoTarget? st.events user = none := by
      rw [redoTarget?, List.findSome?_eq_none_iff]
      intro e he
      rw [List.mem_reverse] at he
      unfold ownUndo?
      cases hev : e.event <;> try rfl
      rename_i s
      simp [h e he s hev]
    rw [handleRedo, hnone]

/-- Concrete instance of C7: user `B` owns no `stroke_end` and no undo in
the example log, so both requests are complete no-ops for `B`. -/
theorem no_eligible_target_noop_witness :
    handleUndo ⟨exLog, ["s0", "s2", "u1"]⟩ "B" "f1" 9 =
      (⟨exLog, ["s0", "s2", "u1"]⟩, none) ∧
    handleRedo ⟨exLog, ["s0", "s2", "u1"]⟩ "B" "f1" 9 =
      (⟨exLog, ["s0", "s2", "u1"]⟩, none) :=
  ⟨(no_eligible_target_noop ⟨exLog, ["s0", "s2", "u1"]⟩ "B" "f1" 9).1
     (by
       intro e he s hev hu
       simp [exLog, exStart, exEnd, exUndo] at he
       rcases he with h | h | h <;> subst h <;> simp_all),
   (no_eligible_target_noop ⟨exLog, ["s0", "s2", "u1"]⟩ "B" "f1" 9).2
     (by
       intro e he s hev hu
       simp [exLog, exStart, exEnd, exUndo] at he
       rcases he with h | h | h <;> subst h <;> simp_all)⟩

/-- C8.  Relay exclusion and best-effort fan-out: a payload delivery
`(c, m)` happens for a message `msg` from `sender` exactly when `c` is a
connected client other than the sender in the open state (`readyState`
1), and the delivered payload is verbatim `msg`; every other connection —
the sender itself, and any non-open connection — is silently skipped. -/
theorem relay_fanout (clients : List Conn) (sender c : Conn)
    (msg m : String) :
    (c, m) ∈ broadcast clients sender msg ↔
      c ∈ clients ∧ c ≠ sender ∧ c.readyState = 1 ∧ m = msg := by
  unfold broadcast
  rw [List.mem_map]
  constructor
  · rintro ⟨a, ha, hemit⟩
    rw [List.mem_filter] at ha
    obtain ⟨hmem, hcond⟩ := ha
    simp only [Bool.and_eq_true, decide_eq_true_eq] at hcond
    obtain ⟨hc, hm⟩ := Prod.mk.injEq .. ▸ hemit
    rw [← hc]
    exact ⟨hmem, hcond.1, hcond.2, hm.symm⟩
  · rintro ⟨hmem, hne, hready, hm⟩
    refine ⟨c, ?_, by rw [hm]⟩
    rw [List.mem_filter]
    exact ⟨hmem, by simp [hne, hready]⟩

/-- C9.  Presence is last-write-wins with per-user isolation: after two
successive updates for the same userId only the later `(x, y, color)` is
retrievable (the earlier one is gone from every slot), an update makes its
own presence retrievable under its userId, any other userId's slot is
untouched, and a remote cursor message is applied as exactly this
overwrite. -/
theorem presence_last_write_wins (m : Cursors) (p1 p2 : CursorPresence)
    (selfId k : String) :
    (p1.userId = p2.userId →
      updateCursor (updateCursor m p1) p2 k = updateCursor m p2 k) ∧
    (updateCursor m p2 p2.userId = some p2) ∧
    (k ≠ p2.userId → updateCursor m p2 k = m k) ∧
    (p2.userId ≠ selfId → onCursorMessage selfId m p2 = updateCursor m p2) := by
  refine ⟨?_, ?_, ?_, ?_⟩
  · intro h
    unfold updateCursor
    by_cases hk : k = p2.userId
    · simp [hk]
    · simp [hk, h ▸ hk]
  · unfold updateCursor
    simp
  · intro hk
    unfold updateCursor
    simp [hk]
  · intro hself
    unfold onCursorMessage
    rw [if_neg hself]

/-- Concrete instance of C9: user `A` moves twice; only the second
position survives, and user `B`'s slot is untouched. -/
theorem presence_last_write_wins_witness :
    updateCursor (updateCursor (fun _ => none) ⟨"A", 0, 0, "red"⟩)
        ⟨"A", 5, 7, "red"⟩ "A" = some ⟨"A", 5, 7, "red"⟩ ∧
    updateCursor (updateCursor (fun _ => none) ⟨"A", 0, 0, "red"⟩)
        ⟨"A", 5, 7, "red"⟩ "B" =
      updateCursor (fun _ => none) ⟨"A", 0, 0, "red"⟩ "B" ∧
    onCursorMessage "Z" (fun _ => none) ⟨"A", 5, 7, "red"⟩ =
      updateCursor (fun _ => none) ⟨"A", 5, 7, "red"⟩ := by
  have h := presence_last_write_wins (fun _ => none) ⟨"A", 0, 0, "red"⟩
    ⟨"A", 5, 7, "red"⟩ "Z" "A"
  have hB := presence_last_write_wins
    (updateCursor (fun _ => none) ⟨"A", 0, 0, "red"⟩) ⟨"A", 0, 0, "red"⟩
    ⟨"A", 5, 7, "red"⟩ "Z" "B"
  refine ⟨?_, hB.2.2.1 (by decide), h.2.2.2 (by decide)⟩
  rw [h.1 rfl]
  exact h.2.1

end Whiteboard
